import Mathlib

/-!
Verification of the rair I/O core against its specification.

This file gives a shallow embedding of the Intel HEX codec plugin
(src/io/src/plugins/ihex.rs) and of the RIO facade (src/io/src/io.rs),
and proves or refutes the claims about them.

Conventions of the embedding:
* machine integers (`u8`, `u16`, `u32`, `u64`) become `Nat`; in the code paths
  embedded here every arithmetic operation is performed on values that are
  provably far below `2 ^ 64`, except where the source masks explicitly
  (`& 0xFF`, `& 0xffff`, ...), which we render as `% 256`, `% 65536`, ....
* the `nom` parsers become functions `List Char → Option (List Char × α)`
  returning the unconsumed input and the parsed value;
* `BTreeMap<u64, u8>` becomes a key-sorted association list `List (Nat × Nat)`
  with `mapInsert` / `mapLookup`; ascending iteration is list order;
* fallible operations return `Except`;
* loops whose termination metric is the length of the remaining input are
  expressed with an explicit fuel parameter that the wrappers instantiate
  with an amount that is provably sufficient, so that every definition
  reduces by evaluation.
-/

namespace Rair

/-! ## Intel HEX record parsing (src/io/src/plugins/ihex.rs) -/

/-- Mirrors `is_hex_digit`: `(c as char).is_ascii_hexdigit()`,
written via `Char.toNat` ranges (48-57 is 0-9, 97-102 is a-f, 65-70 is A-F). -/
def is_hex_digit (c : Char) : Bool :=
  (48 ≤ c.toNat && c.toNat ≤ 57) || (97 ≤ c.toNat && c.toNat ≤ 102) ||
    (65 ≤ c.toNat && c.toNat ≤ 70)

/-- Numeric value of an ASCII hex digit, as computed by `from_hex`
(`u8::from_str_radix(.., 16)`) one digit at a time. -/
def hexVal (c : Char) : Nat :=
  if 48 ≤ c.toNat && c.toNat ≤ 57 then c.toNat - 48
  else if 97 ≤ c.toNat && c.toNat ≤ 102 then c.toNat - 87
  else c.toNat - 55

/-- Mirrors `hex_byte`: `map_res(take_while_m_n(2, 2, is_hex_digit), from_hex)` —
exactly two hex digits, most significant first. -/
def hex_byte : List Char → Option (List Char × Nat)
  | c1 :: c2 :: rest =>
    if is_hex_digit c1 && is_hex_digit c2 then
      some (rest, 16 * hexVal c1 + hexVal c2)
    else none
  | _ => none

/-- Mirrors `hex_big_word`: two `hex_byte`s, `(byte1 << 8) + byte2`. -/
def hex_big_word (l : List Char) : Option (List Char × Nat) :=
  match hex_byte l with
  | none => none
  | some (l1, b1) =>
    match hex_byte l1 with
    | none => none
    | some (l2, b2) => some (l2, 256 * b1 + b2)

/-- Mirrors `hex_big_dword`: two `hex_big_word`s, `(word1 << 16) + word2`. -/
def hex_big_dword (l : List Char) : Option (List Char × Nat) :=
  match hex_big_word l with
  | none => none
  | some (l1, w1) =>
    match hex_big_word l1 with
    | none => none
    | some (l2, w2) => some (l2, 65536 * w1 + w2)

/-- Mirrors `nom`'s `tag`: the literal must be a prefix of the input. -/
def tag : List Char → List Char → Option (List Char)
  | [], l => some l
  | t :: ts, c :: l => if t = c then tag ts l else none
  | _ :: _, [] => none

/-- Mirrors `parse_newline`: `alt((tag("\r\n"), tag("\n"), tag("\r")))`. -/
def parse_newline : List Char → Option (List Char)
  | '\r' :: '\n' :: rest => some rest
  | '\n' :: rest => some rest
  | '\r' :: rest => some rest
  | _ => none

/-- Mirrors `enum Record` of ihex.rs: data, EOF, extended address (02/04
already shifted), start segment address (03), start linear address (05). -/
inductive Record where
  | data (addr : Nat) (bytes : List Nat)
  | eof
  | ea (addr : Nat)
  | ssa (addr : Nat)
  | sla (addr : Nat)
deriving DecidableEq

/-- Mirrors the byte-count loop of `parse_record00`: read `n` hex bytes. -/
def read_data_bytes : Nat → List Char → Option (List Char × List Nat)
  | 0, l => some (l, [])
  | n + 1, l =>
    match hex_byte l with
    | none => none
    | some (l1, b) =>
      match read_data_bytes n l1 with
      | none => none
      | some (l2, bs) => some (l2, b :: bs)

/-- Mirrors `parse_record00` (data record): `":"`, byte count, 16-bit address,
type `"00"`, payload, checksum, newline. -/
def parse_record00 (input : List Char) : Option (List Char × Record) :=
  match tag [':'] input with
  | none => none
  | some i1 =>
    match hex_byte i1 with
    | none => none
    | some (i2, size) =>
      match hex_big_word i2 with
      | none => none
      | some (i3, addr) =>
        match tag ['0', '0'] i3 with
        | none => none
        | some i4 =>
          match read_data_bytes size i4 with
          | none => none
          | some (i5, data) =>
            match hex_byte i5 with
            | none => none
            | some (i6, _) =>
              match parse_newline i6 with
              | none => none
              | some i7 => some (i7, Record.data addr data)

/-- Mirrors `parse_record01` (EOF record): `":00"`, address, `"01"`, checksum
(and, unlike every other record, no newline). -/
def parse_record01 (input : List Char) : Option (List Char × Record) :=
  match tag [':', '0', '0'] input with
  | none => none
  | some i1 =>
    match hex_big_word i1 with
    | none => none
    | some (i2, _) =>
      match tag ['0', '1'] i2 with
      | none => none
      | some i3 =>
        match hex_byte i3 with
        | none => none
        | some (i4, _) => some (i4, Record.eof)

/-- Mirrors `parse_record02` (extended segment address):
returns `Ea(payload << 4)`. -/
def parse_record02 (input : List Char) : Option (List Char × Record) :=
  match tag [':', '0', '2'] input with
  | none => none
  | some i1 =>
    match hex_big_word i1 with
    | none => none
    | some (i2, _) =>
      match tag ['0', '2'] i2 with
      | none => none
      | some i3 =>
        match hex_big_word i3 with
        | none => none
        | some (i4, addr) =>
          match hex_byte i4 with
          | none => none
          | some (i5, _) =>
            match parse_newline i5 with
            | none => none
            | some i6 => some (i6, Record.ea (addr * 16))

/-- Mirrors `parse_record03` (start segment address): returns `Ssa(payload)`. -/
def parse_record03 (input : List Char) : Option (List Char × Record) :=
  match tag [':', '0', '4'] input with
  | none => none
  | some i1 =>
    match hex_big_word i1 with
    | none => none
    | some (i2, _) =>
      match tag ['0', '3'] i2 with
      | none => none
      | some i3 =>
        match hex_big_dword i3 with
        | none => none
        | some (i4, addr) =>
          match hex_byte i4 with
          | none => none
          | some (i5, _) =>
            match parse_newline i5 with
            | none => none
            | some i6 => some (i6, Record.ssa addr)

/-- Mirrors `parse_record04` (extended linear address):
returns `Ea(payload << 16)`. -/
def parse_record04 (input : List Char) : Option (List Char × Record) :=
  match tag [':', '0', '2'] input with
  | none => none
  | some i1 =>
    match hex_big_word i1 with
    | none => none
    | some (i2, _) =>
      match tag ['0', '4'] i2 with
      | none => none
      | some i3 =>
        match hex_big_word i3 with
        | none => none
        | some (i4, addr) =>
          match hex_byte i4 with
          | none => none
          | some (i5, _) =>
            match parse_newline i5 with
            | none => none
            | some i6 => some (i6, Record.ea (addr * 65536))

/-- Mirrors `parse_record05` (start linear address): returns `Sla(payload)`. -/
def parse_record05 (input : List Char) : Option (List Char × Record) :=
  match tag [':', '0', '4'] input with
  | none => none
  | some i1 =>
    match hex_big_word i1 with
    | none => none
    | some (i2, _) =>
      match tag ['0', '5'] i2 with
      | none => none
      | some i3 =>
        match hex_big_dword i3 with
        | none => none
        | some (i4, addr) =>
          match hex_byte i4 with
          | none => none
          | some (i5, _) =>
            match parse_newline i5 with
            | none => none
            | some i6 => some (i6, Record.sla addr)

/-- Mirrors `FileInternals::parse_record`: `alt` over the six record parsers,
in source order, first success wins. -/
def parse_record (input : List Char) : Option (List Char × Record) :=
  match parse_record00 input with
  | some r => some r
  | none =>
    match parse_record01 input with
    | some r => some r
    | none =>
      match parse_record02 input with
      | some r => some r
      | none =>
        match parse_record03 input with
        | some r => some r
        | none =>
          match parse_record04 input with
          | some r => some r
          | none => parse_record05 input

/-! ## The sparse byte map (`BTreeMap<u64, u8>` as a key-sorted assoc list) -/

/-- Key-ordered insert, mirroring `BTreeMap::insert` (replace on equal key). -/
def mapInsert (k v : Nat) : List (Nat × Nat) → List (Nat × Nat)
  | [] => [(k, v)]
  | (k', v') :: rest =>
    if k < k' then (k, v) :: (k', v') :: rest
    else if k = k' then (k, v) :: rest
    else (k', v') :: mapInsert k v rest

/-- Mirrors `BTreeMap::get`. -/
def mapLookup (k : Nat) : List (Nat × Nat) → Option Nat
  | [] => none
  | (k', v') :: rest => if k = k' then some v' else mapLookup k rest

/-- Mirrors the data-record insertion loop of `parse_ihex` (and the write loop
of `FileInternals::write`): insert `data[i]` at key `key0 + i` for each `i`,
in ascending order of `i`. -/
def insertData (m : List (Nat × Nat)) (key0 : Nat) : List Nat → List (Nat × Nat)
  | [] => m
  | b :: rest => insertData (mapInsert key0 b m) (key0 + 1) rest

/-- The three mutable parse fields of `FileInternals`:
the sparse byte map, `ssa` (from Record 03) and `sla` (from Record 05). -/
structure IHexParse where
  bytes : List (Nat × Nat)
  ssaV : Option Nat
  slaV : Option Nat
deriving DecidableEq

/-- Mirrors the loop of `FileInternals::parse_ihex`. `base` is the extended
address, `line` the 1-based count of records already attempted plus one.
The fuel argument is an embedding artifact: each successful record consumes
at least one character, so `parse_ihex` runs the loop with fuel
`input.length + 1`, which is never exhausted. -/
def parseIhexLoop : Nat → IHexParse → Nat → Nat → List Char → Except String IHexParse
  | 0, _, _, _, _ => .error "fuel exhausted"
  | fuel + 1, st, base, line, input =>
    match parse_record input with
    | none => .error ("Invalid Ihex entry at line: " ++ toString line)
    | some (_, .eof) => .ok st
    | some (rest, .data addr d) =>
      parseIhexLoop fuel { st with bytes := insertData st.bytes (addr + base) d }
        base (line + 1) rest
    | some (rest, .ea a) => parseIhexLoop fuel st a (line + 1) rest
    | some (rest, .ssa a) => parseIhexLoop fuel { st with ssaV := some a } base (line + 1) rest
    | some (rest, .sla a) => parseIhexLoop fuel { st with slaV := some a } base (line + 1) rest

/-- Mirrors `FileInternals::parse_ihex`: run the record loop starting from
`base = 0` and `line = 1`, mutating the fields of `st`. -/
def parse_ihex (st : IHexParse) (input : List Char) : Except String IHexParse :=
  parseIhexLoop (input.length + 1) st 0 1 input

/-- Mirrors `IHexPlugin::open` up to the parse: a fresh `FileInternals` with
empty map and unset ssa/sla is filled from the raw file contents; a parse
error fails the whole open with the same error. -/
def openParse (content : List Char) : Except String IHexParse :=
  parse_ihex ⟨[], none, none⟩ content

/-- Mirrors `FileInternals::size`: `max key − min key + 1`, and 0 if empty. -/
def ihexSize (bytes : List (Nat × Nat)) : Nat :=
  match bytes with
  | [] => 0
  | (k, _) :: _ =>
    match bytes.getLast? with
    | none => 0
    | some (k', _) => k' - k + 1

/-- Mirrors `FileInternals::base`: the smallest key, and 0 if empty. -/
def ihexBase (bytes : List (Nat × Nat)) : Nat :=
  match bytes with
  | [] => 0
  | (k, _) :: _ => k

/-! ## Intel HEX serialization (`write_sa`, `write_record02/04`, `write_data`,
`save_ihex` of src/io/src/plugins/ihex.rs) -/

/-- Lowercase hex digit for a value below 16 (as produced by the `{:x}`
format family). -/
def hexChar (n : Nat) : Char :=
  if n < 10 then Char.ofNat (48 + n) else Char.ofNat (87 + n)

/-- Hex digits of `n`, most significant first, empty for 0. Fuel-structural so
that it evaluates; `natToHex` supplies fuel `n`, which suffices because the
number of hex digits of `n` is at most `n` for `n ≥ 1`. -/
def natToHexAux : Nat → Nat → List Char
  | 0, _ => []
  | fuel + 1, n => if n = 0 then [] else natToHexAux fuel (n / 16) ++ [hexChar (n % 16)]

/-- Rust's `{:0wx}` formatting: lowercase hex, left-padded with zeros to a
MINIMUM width of `w` (wider values keep all their digits, e.g.
`{256:02x}` is `"100"`). -/
def hexPad (w n : Nat) : List Char :=
  let d := if n = 0 then ['0'] else natToHexAux n n
  List.replicate (w - d.length) '0' ++ d

/-- Big-endian bytes of a `u16` (`to_be_bytes`). -/
def be2 (w : Nat) : List Nat := [w / 256 % 256, w % 256]

/-- Big-endian bytes of a `u32` (`to_be_bytes`). -/
def be4 (d : Nat) : List Nat :=
  [d / 16777216 % 256, d / 65536 % 256, d / 256 % 256, d % 256]

/-- The running checksum accumulation `checksum = (checksum + byte) & 0xFF`
over a list of bytes. -/
def sumBytes (init : Nat) (l : List Nat) : Nat :=
  l.foldl (fun c b => (c + b) % 256) init

/-- Mirrors `FileInternals::write_sa`: emit Record 03 for `ssa` and Record 05
for `sla` when present. The checksum accumulator starts at `4 + 3`
(resp. `4 + 5`) and the final value is `256 - checksum` with NO reduction
mod 256, printed with `{:02x}`. -/
def write_sa (st : IHexParse) : List Char :=
  (match st.ssaV with
   | some v =>
     (":04000003".data) ++ hexPad 8 v ++ hexPad 2 (256 - sumBytes 7 (be4 v)) ++ ['\n']
   | none => []) ++
  (match st.slaV with
   | some v =>
     (":04000005".data) ++ hexPad 8 v ++ hexPad 2 (256 - sumBytes 9 (be4 v)) ++ ['\n']
   | none => [])

/-- Mirrors `FileInternals::write_record04`: `addr = (k >> 16) as u16`,
checksum accumulator starts at 6, final `256 - checksum` unmasked. -/
def write_record04 (k : Nat) : List Char :=
  (":02000004".data) ++ hexPad 4 (k / 65536 % 65536) ++
    hexPad 2 (256 - sumBytes 6 (be2 (k / 65536 % 65536))) ++ ['\n']

/-- Mirrors `FileInternals::write_record02`: `addr = ((k >> 4) as u16) & 0xf000`
(for a 16-bit value `x`, `x & 0xf000 = x / 4096 * 4096`), checksum accumulator
starts at 4, final `256 - checksum` unmasked. -/
def write_record02 (k : Nat) : List Char :=
  (":02000002".data) ++ hexPad 4 (k / 16 % 65536 / 4096 * 4096) ++
    hexPad 2 (256 - sumBytes 4 (be2 (k / 16 % 65536 / 4096 * 4096))) ++ ['\n']

/-- The loop state of `FileInternals::write_data`: emitted output so far, the
running checksum (note: initialized to `0x10` for EVERY row, regardless of how
many bytes the row will contain), the last written key, the pending row text,
and the count `i` of bytes in the pending row. -/
structure WD where
  out : List Char
  checksum : Nat
  addr : Nat
  row : List Char
  i : Nat

/-- One iteration of the `for (k, v) in &self.bytes` loop of `write_data`. -/
def wdStep (st : WD) (kv : Nat × Nat) : WD :=
  let k := kv.1
  let v := kv.2
  let st1 :=
    if st.i ≠ 0 then
      if st.i = 16 ∨ k ≠ st.addr + 1 then
        { st with
          out := st.out ++ [':'] ++ hexPad 2 st.i ++ st.row ++
            hexPad 2 ((256 - st.checksum) % 256) ++ ['\n'],
          row := [], checksum := 16, i := 0 }
      else
        { st with
          addr := k
          row := st.row ++ hexPad 2 v
          checksum := (st.checksum + v) % 256 }
    else st
  let st2 :=
    if st1.i = 0 then
      let pre :=
        if k > 0xfffff then write_record04 k
        else if k > 0xffff then write_record02 k
        else []
      let offset := k % 65536
      { st1 with
        out := st1.out ++ pre, addr := k,
        row := st1.row ++ hexPad 4 offset ++ ['0', '0'] ++ hexPad 2 v,
        checksum := (sumBytes st1.checksum (be2 offset) + v) % 256 }
    else st1
  { st2 with i := st2.i + 1 }

/-- Mirrors `FileInternals::write_data`: fold the loop over the sparse map in
ascending key order, then flush any pending row. The final flush writes its
checksum as `256 - checksum` with NO mask (unlike the in-loop flush, which
masks with `& 0xff`). -/
def write_data (bytes : List (Nat × Nat)) : List Char :=
  let fin := bytes.foldl wdStep ⟨[], 16, ihexBase bytes, [], 0⟩
  if fin.row = [] then fin.out
  else fin.out ++ [':'] ++ hexPad 2 fin.i ++ fin.row ++
    hexPad 2 (256 - fin.checksum) ++ ['\n']

/-- Mirrors `FileInternals::save_ihex`: truncate the file, write ssa/sla data
records and the EOF record. The result is the new contents of the underlying
raw file. -/
def save_ihex (st : IHexParse) : List Char :=
  write_sa st ++ write_data st.bytes ++ (":00000001FF".data) ++ ['\n']

/-! ## The plugin file object (`FileInternals` read/write paths) -/

/-- Mirrors the `IoMode` bitflags (READ/WRITE/COW) as a set of booleans. -/
structure IoMode where
  write : Bool
  read : Bool
  cow : Bool
deriving DecidableEq

/-- Mirrors the `IoError` taxonomy. The write-permission failure
`IoError::Parse(io::Error::new(ErrorKind::PermissionDenied, ..))` is rendered
as the `permissionDenied` constructor. -/
inductive IoError where
  | addressNotFound
  | addressesOverlap
  | ioPluginNotFound
  | hndlNotFound
  | tooManyFiles
  | permissionDenied
deriving DecidableEq

/-- Mirrors `struct FileInternals`: the sparse byte map, ssa/sla, the
permission flags, and the contents of the underlying raw file (the embedding
of the `file` handle plus the on-disk bytes behind `uri`). -/
structure FileInternals where
  fileContent : List Char
  bytes : List (Nat × Nat)
  prot : IoMode
  ssaV : Option Nat
  slaV : Option Nat
deriving DecidableEq

/-- Mirrors `RIOPluginOperations::read` for `FileInternals`: for each buffer
index, the sparse map value at `i + raddr`, or 0 for unoccupied keys. The
source always returns `Ok(())`; the filled buffer is returned. -/
def FileInternals.read (f : FileInternals) (raddr n : Nat) : List Nat :=
  (List.range n).map (fun i => (mapLookup (i + raddr) f.bytes).getD 0)

/-- Mirrors `RIOPluginOperations::write` for `FileInternals`: with neither COW
nor WRITE the call fails with the permission error before any mutation;
otherwise `buffer[i]` is inserted at key `i + raddr`, and under WRITE the
underlying file is rewritten by `save_ihex` (drop handle, truncate, rewrite,
reopen — netting to: the raw file contents become the serialized image). -/
def FileInternals.write (f : FileInternals) (raddr : Nat) (buffer : List Nat) :
    Except IoError Unit × FileInternals :=
  if !f.prot.cow && !f.prot.write then
    (.error .permissionDenied, f)
  else
    let f1 := { f with bytes := insertData f.bytes raddr buffer }
    if f.prot.write then
      (.ok (), { f1 with fileContent := save_ihex ⟨f1.bytes, f1.ssaV, f1.slaV⟩ })
    else
      (.ok (), f1)

/-- The checksum of the claim and of spec §4.5 "Checksum on write":
`(256 − (sum_of_bytes mod 256)) mod 256` over byte-count, address bytes,
record type and payload. Stated from the spec's words, for comparison with
what the serializer actually emits. -/
def spec_checksum (recordBytes : List Nat) : Nat :=
  (256 - (recordBytes.foldl (· + ·) 0 % 256)) % 256

/-! ## URI acceptance (`IHexPlugin::accept_uri`) -/

/-- Mirrors Rust's `str::split("://")` on `List Char`: non-overlapping
leftmost matches of the three-character separator delimit the parts. -/
def sepSplit : List Char → List (List Char)
  | ':' :: '/' :: '/' :: rest => [] :: sepSplit rest
  | c :: rest =>
    match sepSplit rest with
    | s :: ss => (c :: s) :: ss
    | [] => [[c]]
  | [] => [[]]

/-- Mirrors `IHexPlugin::accept_uri`:
`split.len() == 2 && split[0] == "ihex"`. -/
def accept_uri (uri : List Char) : Bool :=
  let split := sepSplit uri
  split.length == 2 && split.headD [] == ("ihex".data)

/-- Number of (non-overlapping, leftmost) occurrences of `"://"`;
vocabulary for the claim about `accept_uri`. -/
def sepCount : List Char → Nat
  | ':' :: '/' :: '/' :: rest => sepCount rest + 1
  | _ :: rest => sepCount rest
  | [] => 0

/-- The text before the first occurrence of `"://"` (the whole string when
there is none); vocabulary for the claim about `accept_uri`. -/
def sepBefore : List Char → List Char
  | ':' :: '/' :: '/' :: _ => []
  | c :: rest => c :: sepBefore rest
  | [] => []

/-! ## Newline bookkeeping for the parse-error line number -/

/-- No carriage return or line feed occurs in `l`. -/
def NLFree (l : List Char) : Prop := ∀ c ∈ l, c ≠ '\n' ∧ c ≠ '\r'

instance (l : List Char) : Decidable (NLFree l) := by
  unfold NLFree
  exact List.decidableBAll _ l

/-- `l` is one of the three newline tokens accepted by `parse_newline`. -/
def IsNL (l : List Char) : Prop := l = ['\r', '\n'] ∨ l = ['\n'] ∨ l = ['\r']

/-- `ConsumesRecords input k rest` holds when the record parser peels exactly
`k` successive non-EOF records off `input`, leaving `rest`. -/
inductive ConsumesRecords : List Char → Nat → List Char → Prop where
  | zero (input : List Char) : ConsumesRecords input 0 input
  | step (input rest' rest : List Char) (r : Record) (k : Nat) :
      parse_record input = some (rest', r) → r ≠ .eof →
      ConsumesRecords rest' k rest → ConsumesRecords input (k + 1) rest

/-! ## The RIO facade (src/io/src/io.rs)

The descriptor/map index crates (`descquery.rs`, `mapsquery.rs`, `desc.rs`)
are not part of the sources; they are modelled from spec §4.2/§4.3, and the
facade functions below follow src/io/src/io.rs verbatim on top of them. -/

/-- Modelled from the spec: a descriptor owns the physical interval
`[paddr_base, paddr_base + size)`, where `size = content.length` and
`content` is the byte sequence the plugin serves for it. -/
structure RIODesc where
  hndl : Nat
  paddr_base : Nat
  content : List Nat
deriving DecidableEq

/-- Mirrors `RIOMap`: virtual bytes `[vaddr, vaddr+size)` are served by
physical bytes `[paddr, paddr+size)`. -/
structure RIOMap where
  paddr : Nat
  vaddr : Nat
  size : Nat
deriving DecidableEq

/-- Mirrors `struct RIO`: the descriptor index and the map index. -/
structure RIO where
  descs : List RIODesc
  maps : List RIOMap
deriving DecidableEq

/-- Descriptor `d` covers physical address `a`. -/
def covers (d : RIODesc) (a : Nat) : Prop :=
  d.paddr_base ≤ a ∧ a < d.paddr_base + d.content.length

instance (d : RIODesc) (a : Nat) : Decidable (covers d a) := by
  unfold covers; infer_instance

/-- Physical address `a` is covered by some live descriptor. -/
def covered (descs : List RIODesc) (a : Nat) : Prop :=
  ∃ d ∈ descs, covers d a

instance (descs : List RIODesc) (a : Nat) : Decidable (covered descs a) :=
  List.decidableBEx _ descs

/-- Modelled from the spec: the interval-tree query for the descriptor whose
interval contains `a` (spec §3 makes live intervals pairwise disjoint). -/
def findDesc (descs : List RIODesc) (a : Nat) : Option RIODesc :=
  descs.find? (fun d => decide (covers d a))

/-- Modelled from the spec: handle lookup (`hndl_to_mut_desc`). -/
def hndl_to_desc (descs : List RIODesc) (h : Nat) : Option RIODesc :=
  descs.find? (fun d => d.hndl == h)

/-- Modelled from the spec: `RIODesc::read` through the default plugin serves
the descriptor's bytes at the given physical addresses (the facade's own
`pread_sparce` test in io.rs keys results by physical address, so the
segment tuples carry physical start addresses). -/
def desc_read (d : RIODesc) (paddr size : Nat) : List Nat :=
  (List.range size).map (fun i => d.content.getD (paddr + i - d.paddr_base) 0)

/-- Modelled from the spec: (§4.2 range decomposition) walk the intervals
intersecting `[paddr, paddr + len)` in ascending order, failing if any byte
is uncovered. Returns `(handle, physical start, segment length)` tuples.
Fuel-structural; each step consumes at least one byte, so fuel `len`
suffices. -/
def rangeToHndlF : Nat → List RIODesc → Nat → Nat → Option (List (Nat × Nat × Nat))
  | 0, _, _, len => if len = 0 then some [] else none
  | fuel + 1, descs, paddr, len =>
    if len = 0 then some [] else
      match findDesc descs paddr with
      | none => none
      | some d =>
        match rangeToHndlF fuel descs
            (paddr + min len (d.paddr_base + d.content.length - paddr))
            (len - min len (d.paddr_base + d.content.length - paddr)) with
        | none => none
        | some rest =>
          some ((d.hndl, paddr, min len (d.paddr_base + d.content.length - paddr)) :: rest)

/-- Modelled from the spec: `paddr_range_to_hndl(paddr, len)`. -/
def paddr_range_to_hndl (descs : List RIODesc) (paddr len : Nat) :
    Option (List (Nat × Nat × Nat)) :=
  rangeToHndlF len descs paddr len

/-- Modelled from the spec: (§4.2 sparse range decomposition) like
`rangeToHndlF` but gaps in coverage are simply skipped, and the walk never
fails. -/
def sparceRangeF : Nat → List RIODesc → Nat → Nat → List (Nat × Nat × Nat)
  | 0, _, _, _ => []
  | fuel + 1, descs, paddr, len =>
    if len = 0 then [] else
      match findDesc descs paddr with
      | none => sparceRangeF fuel descs (paddr + 1) (len - 1)
      | some d =>
        (d.hndl, paddr, min len (d.paddr_base + d.content.length - paddr)) ::
          sparceRangeF fuel descs
            (paddr + min len (d.paddr_base + d.content.length - paddr))
            (len - min len (d.paddr_base + d.content.length - paddr))

/-- Modelled from the spec: `paddr_sparce_range_to_hndl(paddr, len)`. -/
def paddr_sparce_range_to_hndl (descs : List RIODesc) (paddr len : Nat) :
    List (Nat × Nat × Nat) :=
  sparceRangeF len descs paddr len

/-- Mirrors `RIO::pread`: decompose the range; on failure return
`AddressNotFound` with the buffer untouched; on success fill the buffer
segment by segment in ascending order. -/
def RIO.pread (io : RIO) (paddr : Nat) (buf : List Nat) :
    Except IoError Unit × List Nat :=
  match paddr_range_to_hndl io.descs paddr buf.length with
  | none => (.error .addressNotFound, buf)
  | some ops =>
    (.ok (), ops.foldl
      (fun acc op =>
        acc ++ (match hndl_to_desc io.descs op.1 with
                | some d => desc_read d op.2.1 op.2.2
                | none => []))
      [])

/-- Mirrors `RIO::pread_sparce`: walk the covered sub-ranges, read each
through its descriptor, and key each byte by its physical address in a
sparse map. -/
def RIO.pread_sparce (io : RIO) (paddr size : Nat) : List (Nat × Nat) :=
  (paddr_sparce_range_to_hndl io.descs paddr size).foldl
    (fun result op =>
      match hndl_to_desc io.descs op.1 with
      | some d => insertData result op.2.1 (desc_read d op.2.1 op.2.2)
      | none => result)
    []

/-- Modelled from the spec: (§4.2 close) remove the descriptor with the given
handle; `HndlNotFound` if it is unknown. -/
def descs_close (descs : List RIODesc) (h : Nat) : Except IoError (List RIODesc) :=
  if descs.any (fun d => d.hndl == h) then
    .ok (descs.filter (fun d => !(d.hndl == h)))
  else
    .error .hndlNotFound

/-- Mirrors `RIO::close`: `self.descs.close(hndl)?` — the map index is not
touched. -/
def RIO.close (io : RIO) (h : Nat) : Except IoError RIO :=
  match descs_close io.descs h with
  | .error e => .error e
  | .ok ds => .ok { descs := ds, maps := io.maps }

/-- Mirrors `RIO::close_all`: fresh (empty) map index and descriptor index. -/
def RIO.close_all (_io : RIO) : RIO :=
  { descs := [], maps := [] }

/-- Pairwise well-formedness of the descriptor index, from spec §3:
live physical intervals are pairwise disjoint and handles are unique. -/
def WFDescs (descs : List RIODesc) : Prop :=
  descs.Pairwise (fun d1 d2 =>
    (d1.paddr_base + d1.content.length ≤ d2.paddr_base ∨
     d2.paddr_base + d2.content.length ≤ d1.paddr_base) ∧ d1.hndl ≠ d2.hndl)

instance (descs : List RIODesc) : Decidable (WFDescs descs) := by
  unfold WFDescs; infer_instance

/-- The byte the physical space stores at `a`: the covering descriptor's
content at the local offset. -/
def phys_byte (descs : List RIODesc) (a : Nat) : Option Nat :=
  (findDesc descs a).map (fun d => d.content.getD (a - d.paddr_base) 0)

/-! ## Theorems -/

/-- C1: the claim says that for EVERY accepted Intel HEX input, writing the
already-present bytes back (with READ|WRITE, which triggers the full
re-serialization) and re-opening the serialized file recovers the same sparse
map and ssa/sla. This theorem evaluates the code at the failing input
`":01000000f00f\r\n:00000001FF"` (one data byte 0xF0 at address 0): the open
parses it to the map `{0 ↦ 0xF0}`; rewriting byte 0xF0 at offset 0 succeeds
and re-serializes, but the serialized image ends its data record with the
THREE-digit checksum field `"100"` (`256 - 0` printed by `{:02x}`), which the
plugin's own record grammar cannot parse, so re-opening fails instead of
recovering the map. -/
theorem c1_roundtrip_reopen_fails :
    openParse (":01000000f00f\r\n:00000001FF".data) = .ok ⟨[(0, 0xF0)], none, none⟩
    ∧ (FileInternals.write
        ⟨(":01000000f00f\r\n:00000001FF".data), [(0, 0xF0)], ⟨true, true, false⟩,
          none, none⟩ 0 [0xF0]).1 = .ok ()
    ∧ (FileInternals.write
        ⟨(":01000000f00f\r\n:00000001FF".data), [(0, 0xF0)], ⟨true, true, false⟩,
          none, none⟩ 0 [0xF0]).2.fileContent = (":01000000f0100\n:00000001FF\n".data)
    ∧ openParse (":01000000f0100\n:00000001FF\n".data)
        = .error "Invalid Ihex entry at line: 1" :=
  ⟨rfl, rfl, rfl, rfl⟩

/-- C2: the claim says every emitted record's checksum field equals
`(256 − (sum mod 256)) mod 256` over byte-count, address bytes, type and
payload, written as exactly two hex digits. Two code evaluations refute it:
the serializer starts every data-row checksum accumulator at `0x10`
regardless of the actual byte count, so the one-byte map `{0 ↦ 0x00}` is
emitted as `":0100000000f0"` although the formula over
`[0x01, 0x00, 0x00, 0x00, 0x00]` gives `0xff`; and `write_sa` for
`ssa = 0xF9` prints `256 - 0 = 256` as the THREE hex digits `"100"`. -/
theorem c2_checksum_mismatch :
    write_data [(0, 0)] = (":0100000000f0".data ++ ['\n'])
    ∧ spec_checksum [0x01, 0x00, 0x00, 0x00, 0x00] = 0xff
    ∧ (0xf0 : Nat) ≠ 0xff
    ∧ write_sa ⟨[], some 0xF9, none⟩ = (":04000003000000f9".data ++ ('1' :: "00".data) ++ ['\n'])
    ∧ hexPad 2 256 = ('1' :: "00".data) :=
  ⟨rfl, rfl, by decide, rfl, rfl⟩

theorem mapInsert_lookup_self (k v : Nat) (m : List (Nat × Nat)) :
    mapLookup k (mapInsert k v m) = some v := by
  induction m with
  | nil => simp [mapInsert, mapLookup]
  | cons kv rest ih =>
    obtain ⟨k', v'⟩ := kv
    by_cases h1 : k < k'
    · simp [mapInsert, h1, mapLookup]
    · by_cases h2 : k = k'
      · simp [mapInsert, h1, h2, mapLookup]
      · simp [mapInsert, h1, h2, mapLookup, ih]

theorem mapInsert_lookup_ne (k v q : Nat) (m : List (Nat × Nat)) (h : q ≠ k) :
    mapLookup q (mapInsert k v m) = mapLookup q m := by
  induction m with
  | nil => simp [mapInsert, mapLookup, h]
  | cons kv rest ih =>
    obtain ⟨k', v'⟩ := kv
    by_cases h1 : k < k'
    · simp [mapInsert, h1, mapLookup, h]
    · by_cases h2 : k = k'
      · subst h2; simp [mapInsert, h1, mapLookup, h]
      · by_cases h3 : q = k'
        · simp [mapInsert, h1, h2, mapLookup, h3]
        · simp [mapInsert, h1, h2, mapLookup, h3, ih]

theorem insertData_lookup_lt (data : List Nat) (m : List (Nat × Nat)) (k0 q : Nat)
    (h : q < k0) : mapLookup q (insertData m k0 data) = mapLookup q m := by
  induction data generalizing m k0 with
  | nil => rfl
  | cons b rest ih =>
    rw [insertData, ih (mapInsert k0 b m) (k0 + 1) (by omega),
      mapInsert_lookup_ne k0 b q m (by omega)]

theorem insertData_lookup_ge (data : List Nat) (m : List (Nat × Nat)) (k0 q : Nat)
    (h : k0 + data.length ≤ q) : mapLookup q (insertData m k0 data) = mapLookup q m := by
  induction data generalizing m k0 with
  | nil => rfl
  | cons b rest ih =>
    rw [insertData, ih (mapInsert k0 b m) (k0 + 1) (by simp at h; omega),
      mapInsert_lookup_ne k0 b q m (by simp at h; omega)]

theorem insertData_lookup_get (data : List Nat) (m : List (Nat × Nat)) (k0 i : Nat)
    (h : i < data.length) :
    mapLookup (k0 + i) (insertData m k0 data) = some (data.get ⟨i, h⟩) := by
  induction data generalizing m k0 i with
  | nil => simp at h
  | cons b rest ih =>
    cases i with
    | zero =>
      rw [insertData, Nat.add_zero,
        insertData_lookup_lt rest (mapInsert k0 b m) (k0 + 1) k0 (by omega),
        mapInsert_lookup_self]
      rfl
    | succ j =>
      rw [insertData, show k0 + (j + 1) = (k0 + 1) + j by omega,
        ih (mapInsert k0 b m) (k0 + 1) j (by simpa using h)]
      rfl

/-- C7: with neither WRITE nor COW in the permission set, `write` fails with
the permission error and the file object — sparse map and underlying file
alike — is returned unchanged (the check precedes every mutation). -/
theorem c7_write_permission_denied (f : FileInternals) (raddr : Nat) (buffer : List Nat)
    (hw : f.prot.write = false) (hc : f.prot.cow = false) :
    FileInternals.write f raddr buffer = (.error .permissionDenied, f) := by
  unfold FileInternals.write
  rw [hw, hc]
  rfl

/-- Witness for C7 at a concrete file object. -/
theorem c7_write_permission_denied_witness :
    FileInternals.write ⟨[], [(0, 1)], ⟨false, true, false⟩, none, none⟩ 0 [5]
      = (.error .permissionDenied, ⟨[], [(0, 1)], ⟨false, true, false⟩, none, none⟩) :=
  c7_write_permission_denied _ 0 [5] rfl rfl

/-- C9: with WRITE or COW set, `write(raddr, buffer)` succeeds and an
immediately following `read(raddr, out)` with `out` of the same length
returns exactly `buffer`: the write is visible through the in-memory sparse
map whether or not a flush happened. -/
theorem c9_write_then_read (f : FileInternals) (raddr : Nat) (buffer : List Nat)
    (h : f.prot.write = true ∨ f.prot.cow = true) :
    (FileInternals.write f raddr buffer).1 = .ok ()
    ∧ FileInternals.read (FileInternals.write f raddr buffer).2 raddr buffer.length
        = buffer := by
  have hcond : (!f.prot.cow && !f.prot.write) = false := by
    rcases h with h | h <;> simp [h]
  have hbytes : (FileInternals.write f raddr buffer).2.bytes
      = insertData f.bytes raddr buffer := by
    unfold FileInternals.write
    rw [hcond]
    by_cases hw : f.prot.write = true <;> simp [hw]
  refine ⟨?_, ?_⟩
  · unfold FileInternals.write
    rw [hcond]
    by_cases hw : f.prot.write = true <;> simp [hw]
  · unfold FileInternals.read
    rw [hbytes]
    apply List.ext_getElem (by simp)
    intro i h1 h2
    simp only [List.getElem_map, List.getElem_range]
    rw [Nat.add_comm i raddr,
      insertData_lookup_get buffer f.bytes raddr i (by simpa using h2)]
    simp

/-- Witness for C9 at a concrete file object. -/
theorem c9_write_then_read_witness :
    (FileInternals.write ⟨[], [], ⟨true, true, false⟩, none, none⟩ 2 [7, 8]).1 = .ok ()
    ∧ FileInternals.read
        (FileInternals.write ⟨[], [], ⟨true, true, false⟩, none, none⟩ 2 [7, 8]).2 2
        ([7, 8] : List Nat).length = [7, 8] :=
  c9_write_then_read ⟨[], [], ⟨true, true, false⟩, none, none⟩ 2 [7, 8] (Or.inl rfl)

/-- C8: closing a live handle removes exactly that descriptor and leaves the
map index untouched (aliasing map entries stay, dangling), while `close_all`
resets both the descriptor index and the map index to empty. -/
theorem c8_close_keeps_maps (io : RIO) (h : Nat)
    (hlive : ∃ d ∈ io.descs, d.hndl = h) :
    ∃ io', RIO.close io h = .ok io'
      ∧ io'.maps = io.maps
      ∧ (∀ d, d ∈ io'.descs ↔ d ∈ io.descs ∧ d.hndl ≠ h)
      ∧ ( RIO.close_all io).descs = [] ∧ ( RIO.close_all io).maps = [] := by
  have hany : io.descs.any (fun d => d.hndl == h) = true := by
    obtain ⟨d, hd, hh⟩ := hlive
    exact List.any_eq_true.mpr ⟨d, hd, by simp [hh]⟩
  refine ⟨{ descs := io.descs.filter (fun d => !(d.hndl == h)), maps := io.maps },
    ?_, rfl, ?_, rfl, rfl⟩
  · unfold RIO.close descs_close
    rw [hany]
    rfl
  · intro d
    simp [List.mem_filter]

/-- Witness for C8 at a concrete RIO state with one aliasing map. -/
theorem c8_close_keeps_maps_witness :
    ∃ io', RIO.close ⟨[⟨7, 0, [1]⟩], [⟨0, 64, 1⟩]⟩ 7 = .ok io'
      ∧ io'.maps = ([⟨0, 64, 1⟩] : List RIOMap)
      ∧ (∀ d, d ∈ io'.descs ↔ d ∈ ([⟨7, 0, [1]⟩] : List RIODesc) ∧ d.hndl ≠ 7)
      ∧ ( RIO.close_all ⟨[⟨7, 0, [1]⟩], [⟨0, 64, 1⟩]⟩).descs = []
      ∧ ( RIO.close_all ⟨[⟨7, 0, [1]⟩], [⟨0, 64, 1⟩]⟩).maps = [] :=
  c8_close_keeps_maps ⟨[⟨7, 0, [1]⟩], [⟨0, 64, 1⟩]⟩ 7 ⟨⟨7, 0, [1]⟩, by simp, rfl⟩

theorem rangeToHndlF_uncovered (fuel : Nat) (descs : List RIODesc) (paddr len a : Nat)
    (hfuel : len ≤ fuel) (h1 : paddr ≤ a) (h2 : a < paddr + len)
    (h3 : ¬ covered descs a) : rangeToHndlF fuel descs paddr len = none := by
  induction fuel generalizing paddr len with
  | zero => omega
  | succ fuel ih =>
    have hlen : ¬ len = 0 := by omega
    cases hfd : findDesc descs paddr with
    | none => simp [rangeToHndlF, hlen, hfd]
    | some d =>
      have hdmem : d ∈ descs := List.mem_of_find?_eq_some hfd
      have hdcov : covers d paddr := by
        have hp := List.find?_some hfd
        simpa using hp
      have hseg1 : 1 ≤ min len (d.paddr_base + d.content.length - paddr) := by
        unfold covers at hdcov; omega
      have ha : paddr + min len (d.paddr_base + d.content.length - paddr) ≤ a := by
        by_contra hcon
        push_neg at hcon
        exact h3 ⟨d, hdmem, by unfold covers at hdcov ⊢; omega⟩
      have hrec := ih (paddr + min len (d.paddr_base + d.content.length - paddr))
        (len - min len (d.paddr_base + d.content.length - paddr))
        (by omega) (by omega) (by omega)
      simp [rangeToHndlF, hlen, hfd, hrec]

/-- C3: if any byte of `[paddr, paddr + buf.length)` is uncovered, `pread`
returns `AddressNotFound` and the buffer is returned completely unchanged. -/
theorem c3_pread_all_or_nothing (io : RIO) (paddr : Nat) (buf : List Nat) (a : Nat)
    (h1 : paddr ≤ a) (h2 : a < paddr + buf.length) (h3 : ¬ covered io.descs a) :
    RIO.pread io paddr buf = (.error .addressNotFound, buf) := by
  unfold RIO.pread paddr_range_to_hndl
  rw [rangeToHndlF_uncovered buf.length io.descs paddr buf.length a le_rfl h1 h2 h3]

/-- Witness for C3: one three-byte descriptor, a two-byte read that runs off
its end. -/
theorem c3_pread_all_or_nothing_witness :
    RIO.pread ⟨[⟨0, 0, [9, 9, 9]⟩], []⟩ 2 [1, 2] = (.error .addressNotFound, [1, 2]) :=
  c3_pread_all_or_nothing ⟨[⟨0, 0, [9, 9, 9]⟩], []⟩ 2 [1, 2] 3
    (by omega) (by decide) (by decide)

theorem sepSplit_ne_nil (l : List Char) : sepSplit l ≠ [] := by
  induction l using sepSplit.induct with
  | case1 rest ih => simp [sepSplit]
  | case2 c rest h s ss hsplit ih => simp [sepSplit, hsplit]
  | case3 c rest h hsplit ih => exact absurd hsplit ih
  | case4 => simp [sepSplit]

theorem sepSplit_length (l : List Char) : (sepSplit l).length = sepCount l + 1 := by
  induction l using sepSplit.induct with
  | case1 rest ih => simp [sepSplit, sepCount, ih]
  | case2 c rest h s ss hsplit ih =>
    rw [sepSplit, sepCount]
    · rw [hsplit] at ih ⊢
      simp at ih ⊢
      omega
    · exact h
    · exact h
  | case3 c rest h hsplit ih => exact absurd hsplit (sepSplit_ne_nil rest)
  | case4 => simp [sepSplit, sepCount]

theorem sepSplit_headD (l : List Char) : (sepSplit l).headD [] = sepBefore l := by
  induction l using sepSplit.induct with
  | case1 rest ih => rw [sepSplit, sepBefore]; rfl
  | case2 c rest h s ss hsplit ih =>
    rw [sepSplit, sepBefore]
    · rw [hsplit]
      rw [hsplit] at ih
      simp at ih ⊢
      exact ih
    · exact h
    · exact h
  | case3 c rest h hsplit ih => exact absurd hsplit (sepSplit_ne_nil rest)
  | case4 => rfl

/-- C10: `accept_uri` accepts exactly the URIs with a single occurrence of
the separator `"://"` whose text before it is exactly `"ihex"`; in
particular `"ihex://a://b"` is rejected even though it starts with
`"ihex://"`. -/
theorem c10_accept_uri_characterization :
    (∀ uri, accept_uri uri = true ↔ (sepCount uri = 1 ∧ sepBefore uri = "ihex".data))
    ∧ accept_uri ("ihex://a://b".data) = false := by
  constructor
  · intro uri
    unfold accept_uri
    simp only [Bool.and_eq_true, beq_iff_eq, List.headD_eq_head?_getD]
    rw [← List.headD_eq_head?_getD, sepSplit_length, sepSplit_headD]
    constructor
    · rintro ⟨h1, h2⟩
      exact ⟨by omega, h2⟩
    · rintro ⟨h1, h2⟩
      exact ⟨by omega, h2⟩
  · decide

/-- Witness for C10: a well-formed ihex URI is accepted, via the
characterization applied at a concrete URI. -/
theorem c10_accept_uri_characterization_witness :
    accept_uri ("ihex://tmp/x.hex".data) = true :=
  (c10_accept_uri_characterization.1 ("ihex://tmp/x.hex".data)).mpr
    ⟨by decide, by decide⟩



theorem hex_digit_not_nl {c : Char} (h : is_hex_digit c = true) : c ≠ '\n' ∧ c ≠ '\r' := by
  constructor <;> rintro rfl <;> exact absurd h (by decide)

theorem NLFree_append {a b : List Char} (ha : NLFree a) (hb : NLFree b) : NLFree (a ++ b) := by
  intro c hc
  rcases List.mem_append.mp hc with h | h
  · exact ha c h
  · exact hb c h

theorem tag_shape {ts l rest : List Char} (h : tag ts l = some rest) : l = ts ++ rest := by
  induction ts generalizing l with
  | nil =>
    unfold tag at h
    simpa using h
  | cons t ts ih =>
    cases l with
    | nil => exact absurd h (by simp [tag])
    | cons c l =>
      unfold tag at h
      split at h
      · next heq => simp [heq, ih h]
      · exact absurd h (by simp)

theorem parse_newline_shape {l rest : List Char} (h : parse_newline l = some rest) :
    ∃ nl, l = nl ++ rest ∧ IsNL nl := by
  unfold parse_newline at h
  split at h
  · injection h with h
    subst h
    exact ⟨['\r', '\n'], rfl, Or.inl rfl⟩
  · injection h with h
    subst h
    exact ⟨['\n'], rfl, Or.inr (Or.inl rfl)⟩
  · injection h with h
    subst h
    exact ⟨['\r'], rfl, Or.inr (Or.inr rfl)⟩
  · exact absurd h (by simp)

theorem hex_byte_shape {l rest : List Char} {b : Nat} (h : hex_byte l = some (rest, b)) :
    ∃ c1 c2, l = [c1, c2] ++ rest ∧ is_hex_digit c1 = true ∧ is_hex_digit c2 = true ∧
      b = 16 * hexVal c1 + hexVal c2 := by
  unfold hex_byte at h
  split at h
  · next c1 c2 r =>
    split at h
    · next hd =>
      simp only [Bool.and_eq_true] at hd
      simp only [Option.some.injEq, Prod.mk.injEq] at h
      obtain ⟨hr, hb⟩ := h
      subst hr
      exact ⟨c1, c2, rfl, hd.1, hd.2, hb.symm⟩
    · exact absurd h (by simp)
  · exact absurd h (by simp)

theorem NLFree_two {c1 c2 : Char} (h1 : is_hex_digit c1 = true) (h2 : is_hex_digit c2 = true) :
    NLFree [c1, c2] := by
  intro c hc
  simp only [List.mem_cons, List.not_mem_nil, or_false] at hc
  rcases hc with rfl | rfl
  · exact hex_digit_not_nl h1
  · exact hex_digit_not_nl h2

theorem hexVal_lt {c : Char} (h : is_hex_digit c = true) : hexVal c < 16 := by
  simp only [is_hex_digit, Bool.or_eq_true, Bool.and_eq_true, decide_eq_true_eq] at h
  unfold hexVal
  split
  · next h1 =>
    simp only [Bool.and_eq_true, decide_eq_true_eq] at h1
    omega
  · split
    · next h2 =>
      simp only [Bool.and_eq_true, decide_eq_true_eq] at h2
      omega
    · next h1 h2 =>
      simp only [Bool.and_eq_true, decide_eq_true_eq] at h1 h2
      omega

theorem hex_big_word_shape {l rest : List Char} {w : Nat} (h : hex_big_word l = some (rest, w)) :
    ∃ pre, l = pre ++ rest ∧ pre.length = 4 ∧ NLFree pre ∧ w < 65536 := by
  unfold hex_big_word at h
  cases h1 : hex_byte l with
  | none => simp [h1] at h
  | some p1 =>
    obtain ⟨l1, b1⟩ := p1
    simp only [h1] at h
    cases h2 : hex_byte l1 with
    | none => simp [h2] at h
    | some p2 =>
      obtain ⟨l2, b2⟩ := p2
      simp only [h2, Option.some.injEq, Prod.mk.injEq] at h
      obtain ⟨hr, hw⟩ := h
      subst hr
      obtain ⟨c1, c2, he1, hd1, hd2, hb1⟩ := hex_byte_shape h1
      obtain ⟨c3, c4, he2, hd3, hd4, hb2⟩ := hex_byte_shape h2
      refine ⟨[c1, c2, c3, c4], ?_, rfl, ?_, ?_⟩
      · rw [he1, he2]
        rfl
      · intro c hc
        simp only [List.mem_cons, List.not_mem_nil, or_false] at hc
        rcases hc with rfl | rfl | rfl | rfl
        · exact hex_digit_not_nl hd1
        · exact hex_digit_not_nl hd2
        · exact hex_digit_not_nl hd3
        · exact hex_digit_not_nl hd4
      · have q1 := hexVal_lt hd1
        have q2 := hexVal_lt hd2
        have q3 := hexVal_lt hd3
        have q4 := hexVal_lt hd4
        omega

theorem hex_big_dword_shape {l rest : List Char} {w : Nat} (h : hex_big_dword l = some (rest, w)) :
    ∃ pre, l = pre ++ rest ∧ pre.length = 8 ∧ NLFree pre := by
  unfold hex_big_dword at h
  cases h1 : hex_big_word l with
  | none => simp [h1] at h
  | some p1 =>
    obtain ⟨l1, w1⟩ := p1
    simp only [h1] at h
    cases h2 : hex_big_word l1 with
    | none => simp [h2] at h
    | some p2 =>
      obtain ⟨l2, w2⟩ := p2
      simp only [h2, Option.some.injEq, Prod.mk.injEq] at h
      obtain ⟨hr, hw⟩ := h
      subst hr
      obtain ⟨p1, he1, hl1, hf1, _⟩ := hex_big_word_shape h1
      obtain ⟨p2, he2, hl2, hf2, _⟩ := hex_big_word_shape h2
      refine ⟨p1 ++ p2, ?_, by simp [hl1, hl2], NLFree_append hf1 hf2⟩
      rw [he1, he2]
      simp

theorem read_data_bytes_shape :
    ∀ (n : Nat) {l rest : List Char} {bs : List Nat},
      read_data_bytes n l = some (rest, bs) → ∃ pre, l = pre ++ rest ∧ NLFree pre := by
  intro n
  induction n with
  | zero =>
    intro l rest bs h
    unfold read_data_bytes at h
    simp only [Option.some.injEq, Prod.mk.injEq] at h
    exact ⟨[], by simp [h.1], by intro c hc; simp at hc⟩
  | succ n ih =>
    intro l rest bs h
    unfold read_data_bytes at h
    cases h1 : hex_byte l with
    | none => simp [h1] at h
    | some p1 =>
      obtain ⟨l1, b⟩ := p1
      simp only [h1] at h
      cases h2 : read_data_bytes n l1 with
      | none => simp [h2] at h
      | some p2 =>
        obtain ⟨l2, bs2⟩ := p2
        simp only [h2, Option.some.injEq, Prod.mk.injEq] at h
        obtain ⟨hr, hbs⟩ := h
        subst hr
        obtain ⟨c1, c2, he1, hd1, hd2, _⟩ := hex_byte_shape h1
        obtain ⟨pre2, he2, hf2⟩ := ih h2
        refine ⟨[c1, c2] ++ pre2, ?_, NLFree_append (NLFree_two hd1 hd2) hf2⟩
        rw [he1, he2]
        simp

theorem parse_record00_shape {input rest : List Char} {r : Record}
    (h : parse_record00 input = some (rest, r)) :
    ∃ pre nl, input = pre ++ nl ++ rest ∧ NLFree pre ∧ IsNL nl := by
  unfold parse_record00 at h
  cases h1 : tag [':'] input with
  | none => simp [h1] at h
  | some i1 =>
    simp only [h1] at h
    cases h2 : hex_byte i1 with
    | none => simp [h2] at h
    | some p2 =>
      obtain ⟨i2, size⟩ := p2
      simp only [h2] at h
      cases h3 : hex_big_word i2 with
      | none => simp [h3] at h
      | some p3 =>
        obtain ⟨i3, addr⟩ := p3
        simp only [h3] at h
        cases h4 : tag ['0', '0'] i3 with
        | none => simp [h4] at h
        | some i4 =>
          simp only [h4] at h
          cases h5 : read_data_bytes size i4 with
          | none => simp [h5] at h
          | some p5 =>
            obtain ⟨i5, data⟩ := p5
            simp only [h5] at h
            cases h6 : hex_byte i5 with
            | none => simp [h6] at h
            | some p6 =>
              obtain ⟨i6, ck⟩ := p6
              simp only [h6] at h
              cases h7 : parse_newline i6 with
              | none => simp [h7] at h
              | some i7 =>
                simp only [h7, Option.some.injEq, Prod.mk.injEq] at h
                obtain ⟨hr, _⟩ := h
                subst hr
                obtain ⟨cs1, cs2, he2, hd1, hd2, _⟩ := hex_byte_shape h2
                obtain ⟨p3, he3, _, hf3, _⟩ := hex_big_word_shape h3
                obtain ⟨p5, he5, hf5⟩ := read_data_bytes_shape size h5
                obtain ⟨cc1, cc2, he6, hd5, hd6, _⟩ := hex_byte_shape h6
                obtain ⟨nl, he7, hnl⟩ := parse_newline_shape h7
                refine ⟨[':'] ++ [cs1, cs2] ++ p3 ++ ['0', '0'] ++ p5 ++ [cc1, cc2], nl,
                  ?_, ?_, hnl⟩
                · rw [tag_shape h1, he2, he3, tag_shape h4, he5, he6, he7]
                  simp
                · refine NLFree_append (NLFree_append (NLFree_append (NLFree_append
                    (NLFree_append (by decide) (NLFree_two hd1 hd2)) hf3)
                    (by decide)) hf5) (NLFree_two hd5 hd6)

theorem parse_record02_full {input rest : List Char} {r : Record}
    (h : parse_record02 input = some (rest, r)) :
    (∃ pre nl, input = pre ++ nl ++ rest ∧ NLFree pre ∧ IsNL nl) ∧
    (∃ rest2 p, hex_big_word (input.drop 9) = some (rest2, p) ∧ p < 65536 ∧
      r = Record.ea (p * 16)) := by
  unfold parse_record02 at h
  cases h1 : tag [':', '0', '2'] input with
  | none => simp [h1] at h
  | some i1 =>
    simp only [h1] at h
    cases h2 : hex_big_word i1 with
    | none => simp [h2] at h
    | some p2 =>
      obtain ⟨i2, a0⟩ := p2
      simp only [h2] at h
      cases h3 : tag ['0', '2'] i2 with
      | none => simp [h3] at h
      | some i3 =>
        simp only [h3] at h
        cases h4 : hex_big_word i3 with
        | none => simp [h4] at h
        | some p4 =>
          obtain ⟨i4, addr⟩ := p4
          simp only [h4] at h
          cases h5 : hex_byte i4 with
          | none => simp [h5] at h
          | some p5 =>
            obtain ⟨i5, ck⟩ := p5
            simp only [h5] at h
            cases h6 : parse_newline i5 with
            | none => simp [h6] at h
            | some i6 =>
              simp only [h6, Option.some.injEq, Prod.mk.injEq] at h
              obtain ⟨hr, hrec⟩ := h
              subst hr
              obtain ⟨p2, he2, hl2, hf2, _⟩ := hex_big_word_shape h2
              obtain ⟨p4, he4, hl4, hf4, hb4⟩ := hex_big_word_shape h4
              obtain ⟨cc1, cc2, he5, hd1, hd2, _⟩ := hex_byte_shape h5
              obtain ⟨nl, he6, hnl⟩ := parse_newline_shape h6
              constructor
              · refine ⟨[':', '0', '2'] ++ p2 ++ ['0', '2'] ++ p4 ++ [cc1, cc2], nl,
                  ?_, ?_, hnl⟩
                · rw [tag_shape h1, he2, tag_shape h3, he4, he5, he6]
                  simp
                · refine NLFree_append (NLFree_append (NLFree_append (NLFree_append
                    (by decide) hf2) (by decide)) hf4) (NLFree_two hd1 hd2)
              · have hdrop : input.drop 9 = i3 := by
                  rw [tag_shape h1, he2, tag_shape h3,
                    show ([':', '0', '2'] : List Char) ++ (p2 ++ (['0', '2'] ++ i3))
                      = ([':', '0', '2'] ++ p2 ++ ['0', '2']) ++ i3 by simp]
                  exact List.drop_left' (by simp [hl2])
                exact ⟨i4, addr, by rw [hdrop]; exact h4, hb4, hrec.symm⟩

theorem parse_record04_full {input rest : List Char} {r : Record}
    (h : parse_record04 input = some (rest, r)) :
    (∃ pre nl, input = pre ++ nl ++ rest ∧ NLFree pre ∧ IsNL nl) ∧
    (∃ rest2 p, hex_big_word (input.drop 9) = some (rest2, p) ∧ p < 65536 ∧
      r = Record.ea (p * 65536)) := by
  unfold parse_record04 at h
  cases h1 : tag [':', '0', '2'] input with
  | none => simp [h1] at h
  | some i1 =>
    simp only [h1] at h
    cases h2 : hex_big_word i1 with
    | none => simp [h2] at h
    | some p2 =>
      obtain ⟨i2, a0⟩ := p2
      simp only [h2] at h
      cases h3 : tag ['0', '4'] i2 with
      | none => simp [h3] at h
      | some i3 =>
        simp only [h3] at h
        cases h4 : hex_big_word i3 with
        | none => simp [h4] at h
        | some p4 =>
          obtain ⟨i4, addr⟩ := p4
          simp only [h4] at h
          cases h5 : hex_byte i4 with
          | none => simp [h5] at h
          | some p5 =>
            obtain ⟨i5, ck⟩ := p5
            simp only [h5] at h
            cases h6 : parse_newline i5 with
            | none => simp [h6] at h
            | some i6 =>
              simp only [h6, Option.some.injEq, Prod.mk.injEq] at h
              obtain ⟨hr, hrec⟩ := h
              subst hr
              obtain ⟨p2, he2, hl2, hf2, _⟩ := hex_big_word_shape h2
              obtain ⟨p4, he4, hl4, hf4, hb4⟩ := hex_big_word_shape h4
              obtain ⟨cc1, cc2, he5, hd1, hd2, _⟩ := hex_byte_shape h5
              obtain ⟨nl, he6, hnl⟩ := parse_newline_shape h6
              constructor
              · refine ⟨[':', '0', '2'] ++ p2 ++ ['0', '4'] ++ p4 ++ [cc1, cc2], nl,
                  ?_, ?_, hnl⟩
                · rw [tag_shape h1, he2, tag_shape h3, he4, he5, he6]
                  simp
                · refine NLFree_append (NLFree_append (NLFree_append (NLFree_append
                    (by decide) hf2) (by decide)) hf4) (NLFree_two hd1 hd2)
              · have hdrop : input.drop 9 = i3 := by
                  rw [tag_shape h1, he2, tag_shape h3,
                    show ([':', '0', '2'] : List Char) ++ (p2 ++ (['0', '4'] ++ i3))
                      = ([':', '0', '2'] ++ p2 ++ ['0', '4']) ++ i3 by simp]
                  exact List.drop_left' (by simp [hl2])
                exact ⟨i4, addr, by rw [hdrop]; exact h4, hb4, hrec.symm⟩

theorem parse_record03_shape {input rest : List Char} {r : Record}
    (h : parse_record03 input = some (rest, r)) :
    ∃ pre nl, input = pre ++ nl ++ rest ∧ NLFree pre ∧ IsNL nl := by
  unfold parse_record03 at h
  cases h1 : tag [':', '0', '4'] input with
  | none => simp [h1] at h
  | some i1 =>
    simp only [h1] at h
    cases h2 : hex_big_word i1 with
    | none => simp [h2] at h
    | some p2 =>
      obtain ⟨i2, a0⟩ := p2
      simp only [h2] at h
      cases h3 : tag ['0', '3'] i2 with
      | none => simp [h3] at h
      | some i3 =>
        simp only [h3] at h
        cases h4 : hex_big_dword i3 with
        | none => simp [h4] at h
        | some p4 =>
          obtain ⟨i4, addr⟩ := p4
          simp only [h4] at h
          cases h5 : hex_byte i4 with
          | none => simp [h5] at h
          | some p5 =>
            obtain ⟨i5, ck⟩ := p5
            simp only [h5] at h
            cases h6 : parse_newline i5 with
            | none => simp [h6] at h
            | some i6 =>
              simp only [h6, Option.some.injEq, Prod.mk.injEq] at h
              obtain ⟨hr, hrec⟩ := h
              subst hr
              obtain ⟨p2, he2, hl2, hf2, _⟩ := hex_big_word_shape h2
              obtain ⟨p4, he4, hl4, hf4⟩ := hex_big_dword_shape h4
              obtain ⟨cc1, cc2, he5, hd1, hd2, _⟩ := hex_byte_shape h5
              obtain ⟨nl, he6, hnl⟩ := parse_newline_shape h6
              refine ⟨[':', '0', '4'] ++ p2 ++ ['0', '3'] ++ p4 ++ [cc1, cc2], nl,
                ?_, ?_, hnl⟩
              · rw [tag_shape h1, he2, tag_shape h3, he4, he5, he6]
                simp
              · refine NLFree_append (NLFree_append (NLFree_append (NLFree_append
                  (by decide) hf2) (by decide)) hf4) (NLFree_two hd1 hd2)

theorem parse_record05_shape {input rest : List Char} {r : Record}
    (h : parse_record05 input = some (rest, r)) :
    ∃ pre nl, input = pre ++ nl ++ rest ∧ NLFree pre ∧ IsNL nl := by
  unfold parse_record05 at h
  cases h1 : tag [':', '0', '4'] input with
  | none => simp [h1] at h
  | some i1 =>
    simp only [h1] at h
    cases h2 : hex_big_word i1 with
    | none => simp [h2] at h
    | some p2 =>
      obtain ⟨i2, a0⟩ := p2
      simp only [h2] at h
      cases h3 : tag ['0', '5'] i2 with
      | none => simp [h3] at h
      | some i3 =>
        simp only [h3] at h
        cases h4 : hex_big_dword i3 with
        | none => simp [h4] at h
        | some p4 =>
          obtain ⟨i4, addr⟩ := p4
          simp only [h4] at h
          cases h5 : hex_byte i4 with
          | none => simp [h5] at h
          | some p5 =>
            obtain ⟨i5, ck⟩ := p5
            simp only [h5] at h
            cases h6 : parse_newline i5 with
            | none => simp [h6] at h
            | some i6 =>
              simp only [h6, Option.some.injEq, Prod.mk.injEq] at h
              obtain ⟨hr, hrec⟩ := h
              subst hr
              obtain ⟨p2, he2, hl2, hf2, _⟩ := hex_big_word_shape h2
              obtain ⟨p4, he4, hl4, hf4⟩ := hex_big_dword_shape h4
              obtain ⟨cc1, cc2, he5, hd1, hd2, _⟩ := hex_byte_shape h5
              obtain ⟨nl, he6, hnl⟩ := parse_newline_shape h6
              refine ⟨[':', '0', '4'] ++ p2 ++ ['0', '5'] ++ p4 ++ [cc1, cc2], nl,
                ?_, ?_, hnl⟩
              · rw [tag_shape h1, he2, tag_shape h3, he4, he5, he6]
                simp
              · refine NLFree_append (NLFree_append (NLFree_append (NLFree_append
                  (by decide) hf2) (by decide)) hf4) (NLFree_two hd1 hd2)

theorem parse_record01_eof {input rest : List Char} {r : Record}
    (h : parse_record01 input = some (rest, r)) : r = Record.eof := by
  unfold parse_record01 at h
  cases h1 : tag [':', '0', '0'] input with
  | none => simp [h1] at h
  | some i1 =>
    simp only [h1] at h
    cases h2 : hex_big_word i1 with
    | none => simp [h2] at h
    | some p2 =>
      obtain ⟨i2, a0⟩ := p2
      simp only [h2] at h
      cases h3 : tag ['0', '1'] i2 with
      | none => simp [h3] at h
      | some i3 =>
        simp only [h3] at h
        cases h4 : hex_byte i3 with
        | none => simp [h4] at h
        | some p4 =>
          obtain ⟨i4, ck⟩ := p4
          simp only [h4, Option.some.injEq, Prod.mk.injEq] at h
          exact h.2.symm

theorem parse_record_shape {input rest : List Char} {r : Record}
    (h : parse_record input = some (rest, r)) (hne : r ≠ Record.eof) :
    ∃ pre nl, input = pre ++ nl ++ rest ∧ NLFree pre ∧ IsNL nl := by
  unfold parse_record at h
  cases q0 : parse_record00 input with
  | some p =>
    simp only [q0, Option.some.injEq] at h
    subst h
    exact parse_record00_shape q0
  | none =>
    simp only [q0] at h
    cases q1 : parse_record01 input with
    | some p =>
      simp only [q1, Option.some.injEq] at h
      subst h
      exact absurd (parse_record01_eof q1) hne
    | none =>
      simp only [q1] at h
      cases q2 : parse_record02 input with
      | some p =>
        simp only [q2, Option.some.injEq] at h
        subst h
        exact (parse_record02_full q2).1
      | none =>
        simp only [q2] at h
        cases q3 : parse_record03 input with
        | some p =>
          simp only [q3, Option.some.injEq] at h
          subst h
          exact parse_record03_shape q3
        | none =>
          simp only [q3] at h
          cases q4 : parse_record04 input with
          | some p =>
            simp only [q4, Option.some.injEq] at h
            subst h
            exact (parse_record04_full q4).1
          | none =>
            simp only [q4] at h
            exact parse_record05_shape h

theorem parse_record_consumes {input rest : List Char} {r : Record}
    (h : parse_record input = some (rest, r)) (hne : r ≠ Record.eof) :
    rest.length < input.length := by
  obtain ⟨pre, nl, he, _, hnl⟩ := parse_record_shape h hne
  have hnl1 : 1 ≤ nl.length := by rcases hnl with rfl | rfl | rfl <;> simp
  rw [he]
  simp only [List.length_append]
  omega

/-- C4: `parse_ihex` runs the record loop from `current_base = 0`; a data
record with address `addr` and payload `d` inserts (for each `i < |d|`)
`d[i]` at key `current_base + addr + i` and continues; a record 02 yields
`Ea(payload << 4)` and a record 04 yields `Ea(payload << 16)` with the
payload parsed at offset 9 of the record text, and an `Ea` record replaces
`current_base`; records 03/05 set `ssa`/`sla`; an EOF record stops the loop
successfully. -/
theorem c4_parse_ihex_semantics :
    (∀ st input, parse_ihex st input = parseIhexLoop (input.length + 1) st 0 1 input)
    ∧ (∀ (fuel : Nat) st (base line : Nat) input rest (addr : Nat) (d : List Nat),
        parse_record input = some (rest, Record.data addr d) →
        parseIhexLoop (fuel + 1) st base line input
          = parseIhexLoop fuel { st with bytes := insertData st.bytes (addr + base) d }
              base (line + 1) rest)
    ∧ (∀ (base addr i : Nat) (d : List Nat) (m : List (Nat × Nat)) (h : i < d.length),
        mapLookup (base + addr + i) (insertData m (addr + base) d) = some (d.get ⟨i, h⟩))
    ∧ (∀ (fuel : Nat) st (base line : Nat) input rest (a : Nat),
        parse_record input = some (rest, Record.ea a) →
        parseIhexLoop (fuel + 1) st base line input
          = parseIhexLoop fuel st a (line + 1) rest)
    ∧ (∀ input rest r, parse_record02 input = some (rest, r) →
        ∃ rest2 p, hex_big_word (input.drop 9) = some (rest2, p) ∧ p < 65536 ∧
          r = Record.ea (p * 16))
    ∧ (∀ input rest r, parse_record04 input = some (rest, r) →
        ∃ rest2 p, hex_big_word (input.drop 9) = some (rest2, p) ∧ p < 65536 ∧
          r = Record.ea (p * 65536))
    ∧ (∀ (fuel : Nat) st (base line : Nat) input rest (a : Nat),
        parse_record input = some (rest, Record.ssa a) →
        parseIhexLoop (fuel + 1) st base line input
          = parseIhexLoop fuel { st with ssaV := some a } base (line + 1) rest)
    ∧ (∀ (fuel : Nat) st (base line : Nat) input rest (a : Nat),
        parse_record input = some (rest, Record.sla a) →
        parseIhexLoop (fuel + 1) st base line input
          = parseIhexLoop fuel { st with slaV := some a } base (line + 1) rest)
    ∧ (∀ (fuel : Nat) st (base line : Nat) input rest,
        parse_record input = some (rest, Record.eof) →
        parseIhexLoop (fuel + 1) st base line input = .ok st) := by
  refine ⟨fun st input => rfl, ?_, ?_, ?_, ?_, ?_, ?_, ?_, ?_⟩
  · intro fuel st base line input rest addr d h
    simp [parseIhexLoop, h]
  · intro base addr i d m h
    rw [show base + addr + i = addr + base + i by omega]
    exact insertData_lookup_get d m (addr + base) i h
  · intro fuel st base line input rest a h
    simp [parseIhexLoop, h]
  · intro input rest r h
    exact (parse_record02_full h).2
  · intro input rest r h
    exact (parse_record04_full h).2
  · intro fuel st base line input rest a h
    simp [parseIhexLoop, h]
  · intro fuel st base line input rest a h
    simp [parseIhexLoop, h]
  · intro fuel st base line input rest h
    simp [parseIhexLoop, h]

/-- Witness for C4: the EOF clause applied to the concrete EOF record, from
an arbitrary concrete loop state. -/
theorem c4_parse_ihex_semantics_witness :
    parseIhexLoop 5 ⟨[(3, 4)], none, none⟩ 77 9 (":00000001FF".data)
      = .ok ⟨[(3, 4)], none, none⟩ :=
  c4_parse_ihex_semantics.2.2.2.2.2.2.2.2 4 ⟨[(3, 4)], none, none⟩ 77 9
    (":00000001FF".data) [] rfl

theorem parseIhexLoop_error_line :
    ∀ (fuel : Nat) st (base line : Nat) input s, input.length < fuel →
      parseIhexLoop fuel st base line input = .error s →
      ∃ k rest, s = "Invalid Ihex entry at line: " ++ toString (line + k)
        ∧ ConsumesRecords input k rest ∧ parse_record rest = none := by
  intro fuel
  induction fuel with
  | zero =>
    intro st base line input s h1 h2
    omega
  | succ fuel ih =>
    intro st base line input s h1 h2
    rw [parseIhexLoop] at h2
    cases hpr : parse_record input with
    | none =>
      simp only [hpr] at h2
      injection h2 with h2
      exact ⟨0, input, by rw [Nat.add_zero, ← h2], ConsumesRecords.zero input, hpr⟩
    | some p =>
      obtain ⟨rest1, r⟩ := p
      simp only [hpr] at h2
      cases r with
      | eof => simp at h2
      | data addr d =>
        have hco := parse_record_consumes hpr (by simp)
        obtain ⟨k, rest, hs, hcr, hnone⟩ := ih _ _ _ _ _ (by omega) h2
        refine ⟨k + 1, rest, ?_, ConsumesRecords.step _ _ _ _ _ hpr (by simp) hcr, hnone⟩
        rw [hs, show line + 1 + k = line + (k + 1) by omega]
      | ea a =>
        have hco := parse_record_consumes hpr (by simp)
        obtain ⟨k, rest, hs, hcr, hnone⟩ := ih _ _ _ _ _ (by omega) h2
        refine ⟨k + 1, rest, ?_, ConsumesRecords.step _ _ _ _ _ hpr (by simp) hcr, hnone⟩
        rw [hs, show line + 1 + k = line + (k + 1) by omega]
      | ssa a =>
        have hco := parse_record_consumes hpr (by simp)
        obtain ⟨k, rest, hs, hcr, hnone⟩ := ih _ _ _ _ _ (by omega) h2
        refine ⟨k + 1, rest, ?_, ConsumesRecords.step _ _ _ _ _ hpr (by simp) hcr, hnone⟩
        rw [hs, show line + 1 + k = line + (k + 1) by omega]
      | sla a =>
        have hco := parse_record_consumes hpr (by simp)
        obtain ⟨k, rest, hs, hcr, hnone⟩ := ih _ _ _ _ _ (by omega) h2
        refine ⟨k + 1, rest, ?_, ConsumesRecords.step _ _ _ _ _ hpr (by simp) hcr, hnone⟩
        rw [hs, show line + 1 + k = line + (k + 1) by omega]

/-- C6: whenever the parse fails, the error string is exactly
`"Invalid Ihex entry at line: N"` where `N = 1 + k` and `k` is the number of
records successfully parsed before the offending one; each such record
consumes exactly one newline-terminated line (its consumed text contains no
CR/LF except the single final newline token), so `N` is the 1-indexed line
number of the offending record; and `open` reports exactly the parse error. -/
theorem c6_parse_error_reports_line :
    (∀ st input s, parse_ihex st input = .error s →
      ∃ k rest, s = "Invalid Ihex entry at line: " ++ toString (1 + k)
        ∧ ConsumesRecords input k rest ∧ parse_record rest = none)
    ∧ (∀ input rest r, parse_record input = some (rest, r) → r ≠ Record.eof →
        ∃ pre nl, input = pre ++ nl ++ rest ∧ NLFree pre ∧ IsNL nl)
    ∧ (∀ input, openParse input = parse_ihex ⟨[], none, none⟩ input) := by
  refine ⟨?_, fun input rest r h hne => parse_record_shape h hne, fun input => rfl⟩
  intro st input s h
  exact parseIhexLoop_error_line (input.length + 1) st 0 1 input s (by omega) h

/-- Witness for C6 on a concrete three-line input whose third line is
malformed. -/
theorem c6_parse_error_reports_line_witness :
    ∃ k rest, ("Invalid Ihex entry at line: 3" : String)
        = "Invalid Ihex entry at line: " ++ toString (1 + k)
      ∧ ConsumesRecords ((":0100000041BE\n:0100400042BD\nxx".data)) k rest
      ∧ parse_record rest = none :=
  c6_parse_error_reports_line.1 ⟨[], none, none⟩
    (":0100000041BE\n:0100400042BD\nxx".data) "Invalid Ihex entry at line: 3" rfl

theorem findDesc_eq_none {descs : List RIODesc} {a : Nat} :
    findDesc descs a = none ↔ ¬ covered descs a := by
  unfold findDesc covered
  rw [List.find?_eq_none]
  simp [decide_eq_true_eq]

theorem findDesc_covers {descs : List RIODesc} {a : Nat} {d : RIODesc}
    (h : findDesc descs a = some d) : d ∈ descs ∧ covers d a := by
  refine ⟨List.mem_of_find?_eq_some h, ?_⟩
  have hp := List.find?_some h
  simpa using hp

theorem findDesc_of_covers : ∀ {descs : List RIODesc}, WFDescs descs →
    ∀ {d : RIODesc} {a : Nat}, d ∈ descs → covers d a → findDesc descs a = some d := by
  intro descs
  induction descs with
  | nil =>
    intro _ d a hd
    simp at hd
  | cons e rest ih =>
    intro hwf d a hd hc
    rw [WFDescs, List.pairwise_cons] at hwf
    obtain ⟨he, hrest⟩ := hwf
    rcases List.mem_cons.mp hd with rfl | hd2
    · unfold findDesc
      rw [List.find?_cons_of_pos _ (by simp [hc])]
    · have hne : ¬ covers e a := by
        intro hce
        have hdisj := (he d hd2).1
        unfold covers at hc hce
        omega
      unfold findDesc
      rw [List.find?_cons_of_neg _ (by simp [hne])]
      exact ih hrest hd2 hc

theorem hndl_to_desc_of_mem : ∀ {descs : List RIODesc}, WFDescs descs →
    ∀ {d : RIODesc}, d ∈ descs → hndl_to_desc descs d.hndl = some d := by
  intro descs
  induction descs with
  | nil =>
    intro _ d hd
    simp at hd
  | cons e rest ih =>
    intro hwf d hd
    rw [WFDescs, List.pairwise_cons] at hwf
    obtain ⟨he, hrest⟩ := hwf
    rcases List.mem_cons.mp hd with rfl | hd2
    · unfold hndl_to_desc
      rw [List.find?_cons_of_pos _ (by simp)]
    · have hne : e.hndl ≠ d.hndl := (he d hd2).2
      unfold hndl_to_desc
      rw [List.find?_cons_of_neg _ (by simp [hne])]
      exact ih hrest hd2

theorem desc_read_length (d : RIODesc) (p s : Nat) : (desc_read d p s).length = s := by
  simp [desc_read]

theorem desc_read_get {d : RIODesc} {p s j : Nat} (h : j < (desc_read d p s).length) :
    (desc_read d p s).get ⟨j, h⟩ = d.content.getD (p + j - d.paddr_base) 0 := by
  simp [desc_read]

theorem sparceFold_lookup (descs : List RIODesc) (hwf : WFDescs descs) :
    ∀ (fuel paddr len : Nat) (m0 : List (Nat × Nat)), len ≤ fuel → ∀ a,
      mapLookup a ((sparceRangeF fuel descs paddr len).foldl
        (fun result op =>
          match hndl_to_desc descs op.1 with
          | some d => insertData result op.2.1 (desc_read d op.2.1 op.2.2)
          | none => result) m0) =
      (if paddr ≤ a ∧ a < paddr + len ∧ covered descs a then phys_byte descs a
       else mapLookup a m0) := by
  intro fuel
  induction fuel with
  | zero =>
    intro paddr len m0 hf a
    have hz : len = 0 := by omega
    subst hz
    rw [sparceRangeF]
    simp only [List.foldl_nil]
    rw [if_neg (by omega)]
  | succ fuel ih =>
    intro paddr len m0 hf a
    by_cases hlen : len = 0
    · subst hlen
      rw [sparceRangeF, if_pos rfl]
      simp only [List.foldl_nil]
      rw [if_neg (by omega)]
    · cases hfd : findDesc descs paddr with
      | none =>
        have hncov : ¬ covered descs paddr := findDesc_eq_none.mp hfd
        rw [sparceRangeF, if_neg hlen]
        simp only [hfd]
        rw [ih (paddr + 1) (len - 1) m0 (by omega) a]
        by_cases hc : paddr ≤ a ∧ a < paddr + len ∧ covered descs a
        · obtain ⟨hc1, hc2, hc3⟩ := hc
          have ha1 : paddr + 1 ≤ a := by
            rcases Nat.eq_or_lt_of_le hc1 with rfl | hlt
            · exact absurd hc3 hncov
            · omega
          rw [if_pos ⟨ha1, by omega, hc3⟩, if_pos ⟨hc1, hc2, hc3⟩]
        · rw [if_neg hc, if_neg ?_]
          rintro ⟨hd1, hd2, hd3⟩
          exact hc ⟨by omega, by omega, hd3⟩
      | some d =>
        obtain ⟨hdmem, hdcov⟩ := findDesc_covers hfd
        have hcovu : d.paddr_base ≤ paddr ∧ paddr < d.paddr_base + d.content.length := hdcov
        rw [sparceRangeF, if_neg hlen]
        simp only [hfd, List.foldl_cons, hndl_to_desc_of_mem hwf hdmem]
        rw [ih (paddr + min len (d.paddr_base + d.content.length - paddr))
          (len - min len (d.paddr_base + d.content.length - paddr))
          (insertData m0 paddr
            (desc_read d paddr (min len (d.paddr_base + d.content.length - paddr))))
          (by omega) a]
        by_cases hq : paddr + min len (d.paddr_base + d.content.length - paddr) ≤ a
            ∧ a < paddr + min len (d.paddr_base + d.content.length - paddr)
                + (len - min len (d.paddr_base + d.content.length - paddr))
            ∧ covered descs a
        · rw [if_pos hq, if_pos ⟨by omega, by omega, hq.2.2⟩]
        · rw [if_neg hq]
          by_cases hp : paddr ≤ a ∧ a < paddr + len ∧ covered descs a
          · have ha2 : a < paddr + min len (d.paddr_base + d.content.length - paddr) := by
              by_contra hcon
              push_neg at hcon
              exact hq ⟨hcon, by omega, hp.2.2⟩
            rw [if_pos hp]
            have hg := insertData_lookup_get
              (desc_read d paddr (min len (d.paddr_base + d.content.length - paddr)))
              m0 paddr (a - paddr) (by rw [desc_read_length]; omega)
            rw [show paddr + (a - paddr) = a by omega] at hg
            rw [hg, desc_read_get]
            have hcda : covers d a := by
              unfold covers
              omega
            unfold phys_byte
            rw [findDesc_of_covers hwf hdmem hcda]
            rw [show paddr + (a - paddr) - d.paddr_base = a - d.paddr_base by omega]
            rfl
          · rw [if_neg hp]
            have hout : a < paddr
                ∨ paddr + min len (d.paddr_base + d.content.length - paddr) ≤ a := by
              by_contra hcon
              push_neg at hcon
              obtain ⟨hx, hy⟩ := hcon
              refine hp ⟨by omega, by omega, ⟨d, hdmem, ?_⟩⟩
              unfold covers
              omega
            rcases hout with hlt | hge
            · exact insertData_lookup_lt _ _ _ _ hlt
            · exact insertData_lookup_ge _ _ _ _ (by rw [desc_read_length]; omega)

/-- C5: `pread_sparce(paddr, size)` never fails for gaps; its sparse result
maps exactly the covered physical addresses of `[paddr, paddr + size)` — every
such address to the byte its descriptor stores there, and nothing else. -/
theorem c5_pread_sparce_covered_exactly (io : RIO) (paddr size : Nat)
    (hwf : WFDescs io.descs) (a : Nat) :
    mapLookup a ( RIO.pread_sparce io paddr size) =
      (if paddr ≤ a ∧ a < paddr + size ∧ covered io.descs a then phys_byte io.descs a
       else none) := by
  unfold RIO.pread_sparce paddr_sparce_range_to_hndl
  rw [sparceFold_lookup io.descs hwf size paddr size [] le_rfl a]
  rfl

/-- Witness for C5 at a concrete state: one descriptor at base 5 holding
`[10, 11]`, query range `[4, 8)`, probed at the covered address 5. -/
theorem c5_pread_sparce_covered_exactly_witness :
    mapLookup 5 ( RIO.pread_sparce ⟨[⟨1, 5, [10, 11]⟩], []⟩ 4 4) =
      (if 4 ≤ 5 ∧ 5 < 4 + 4 ∧ covered [⟨1, 5, [10, 11]⟩] 5
       then phys_byte [⟨1, 5, [10, 11]⟩] 5 else none) :=
  c5_pread_sparce_covered_exactly ⟨[⟨1, 5, [10, 11]⟩], []⟩ 4 4 (by decide) 5

end Rair
